import Mathlib

/-!
Verification of the Inkpoint document-to-page rendering engine:
a shallow embedding of the markdown tokenizer's inline parser,
the block-style resolver, the page assembler, the section-cache
codec and the glyph interval lookup, with theorems settling the
specification's claims about them.

Machine integers are modelled as `Nat`/`Int` with explicit
two's-complement wrapping where the C++ code truncates
(`static_cast<int16_t>` etc.).
-/

/-- Two's-complement wrap of an integer into the `int16_t` range
`[-32768, 32767]`, modelling C++ `static_cast<int16_t>`. -/
def wrap16 (x : ℤ) : ℤ := (x + 32768) % 65536 - 32768

/-- Text alignment values (`CssTextAlign`).  The enum's definition lives in
`CssStyle.h`; only distinctness of the values matters here, so the
constructors mirror the names used by the source. -/
inductive CssTextAlign where
  | none
  | left
  | center
  | right
  | justify
  deriving DecidableEq, Repr

/-- Block-level styling properties, embedded from `BlockStyle.h`.
The `int16_t` fields are integers kept in (or wrapped into) the
`int16_t` range by the operations that build them. -/
structure BlockStyle where
  alignment : CssTextAlign := CssTextAlign.justify
  marginTop : ℤ := 0
  marginBottom : ℤ := 0
  marginLeft : ℤ := 0
  marginRight : ℤ := 0
  paddingTop : ℤ := 0
  paddingBottom : ℤ := 0
  paddingLeft : ℤ := 0
  paddingRight : ℤ := 0
  textIndent : ℤ := 0
  hangingIndent : ℤ := 0
  textIndentDefined : Bool := false
  textAlignDefined : Bool := false
  deriving DecidableEq, Repr

/-- Combined left inset (`marginLeft + paddingLeft`), truncated to
`int16_t` as in `BlockStyle::leftInset`. -/
def BlockStyle.leftInset (s : BlockStyle) : ℤ := wrap16 (s.marginLeft + s.paddingLeft)

/-- Combined right inset, truncated to `int16_t` as in `BlockStyle::rightInset`. -/
def BlockStyle.rightInset (s : BlockStyle) : ℤ := wrap16 (s.marginRight + s.paddingRight)

/-- Combined horizontal insets, truncated to `int16_t` as in
`BlockStyle::totalHorizontalInset`. -/
def BlockStyle.totalHorizontalInset (s : BlockStyle) : ℤ :=
  wrap16 (s.leftInset + s.rightInset)

/-- Parent-to-child block style composition, embedded from
`BlockStyle::getCombinedBlockStyle` (the receiver is the parent,
the argument the child): margins and paddings are summed with
`int16_t` truncation; hanging indent takes the child's value when
nonzero; text indent and alignment take the child's value when the
child marks them as explicitly defined, else inherit the parent's. -/
def BlockStyle.getCombinedBlockStyle (parent child : BlockStyle) : BlockStyle :=
  { marginTop := wrap16 (child.marginTop + parent.marginTop)
    marginBottom := wrap16 (child.marginBottom + parent.marginBottom)
    marginLeft := wrap16 (child.marginLeft + parent.marginLeft)
    marginRight := wrap16 (child.marginRight + parent.marginRight)
    paddingTop := wrap16 (child.paddingTop + parent.paddingTop)
    paddingBottom := wrap16 (child.paddingBottom + parent.paddingBottom)
    paddingLeft := wrap16 (child.paddingLeft + parent.paddingLeft)
    paddingRight := wrap16 (child.paddingRight + parent.paddingRight)
    hangingIndent := if child.hangingIndent ≠ 0 then child.hangingIndent else parent.hangingIndent
    textIndent := if child.textIndentDefined then child.textIndent else parent.textIndent
    textIndentDefined := if child.textIndentDefined then true else parent.textIndentDefined
    alignment := if child.textAlignDefined then child.alignment else parent.alignment
    textAlignDefined := if child.textAlignDefined then true else parent.textAlignDefined }

/-- List item block style, embedded from
`MarkdownParser::listItemBlockStyle`: left margin `15 * (level + 1)`
truncated to `int16_t`, hanging indent `margin + prefixWidth`
(the rendered width of the bullet or number prefix is a parameter,
as `GfxRenderer::getTextWidth` is an external collaborator). -/
def listItemBlockStyle (level : ℤ) (prefixWidth : ℤ) : BlockStyle :=
  { alignment := CssTextAlign.left
    textAlignDefined := true
    marginLeft := wrap16 (15 * (level + 1))
    hangingIndent := wrap16 (wrap16 (15 * (level + 1)) + prefixWidth) }

/-- Page element as placed by the assembler: a laid-out text line at
`(x, y)`, or the separator drawn for a horizontal rule at `(x, yMid)`
with a given width (`PageLine` / `PageSeparator`). -/
inductive PElem where
  | line (x y : ℤ)
  | separator (x y w : ℤ)
  deriving DecidableEq, Repr

/-- Assembler state during a build pass: the pages already handed to the
caller (in order), the elements of the page under construction, whether a
current page object exists (`currentPage` non-null), and the vertical
cursor `currentPageNextY`. -/
structure AsmState where
  pages : List (List PElem) := []
  cur : List PElem := []
  hasPage : Bool := false
  nextY : ℤ := 0
  deriving DecidableEq, Repr

/-- Placement of one wrapped line, embedded from
`MarkdownParser::addLineToPage` with `lh` the compression-scaled line
height and `vh` the viewport height: if the cursor plus one line height
strictly exceeds the viewport height, the current page is finalized and
an empty page starts at cursor 0; the line is then placed at the cursor
and the cursor advances by `lh`. -/
def addLineToPage (lh vh : ℤ) (xOff : ℤ) (st : AsmState) : AsmState :=
  if st.nextY + lh > vh then
    { pages := st.pages ++ [st.cur]
      cur := [PElem.line xOff 0]
      hasPage := st.hasPage
      nextY := lh }
  else
    { pages := st.pages
      cur := st.cur ++ [PElem.line xOff st.nextY]
      hasPage := st.hasPage
      nextY := st.nextY + lh }

/-- Block flush, embedded from `MarkdownParser::makePages`: ensure a page
exists, advance the cursor by positive top margin and padding, place each
wrapped line (the external line breaker's output is abstracted as the
number of wrapped lines, each placed at the block's left inset), advance
by positive bottom margin and padding, and add half a line height when
extra paragraph spacing is enabled. -/
def makePages (lh vh : ℤ) (extraParagraphSpacing : Bool) (bs : BlockStyle)
    (numLines : ℕ) (st : AsmState) : AsmState :=
  let st1 : AsmState :=
    if st.hasPage then st else { st with cur := [], hasPage := true, nextY := 0 }
  let st2 : AsmState :=
    { st1 with nextY := st1.nextY + (if bs.marginTop > 0 then bs.marginTop else 0) +
        (if bs.paddingTop > 0 then bs.paddingTop else 0) }
  let st3 : AsmState :=
    Nat.rec st2 (fun _ acc => addLineToPage lh vh bs.leftInset acc) numLines
  { st3 with nextY := st3.nextY + (if bs.marginBottom > 0 then bs.marginBottom else 0) +
      (if bs.paddingBottom > 0 then bs.paddingBottom else 0) +
      (if extraParagraphSpacing then lh / 2 else 0) }

/-- Horizontal rule handling, embedded from the
`MD_TOKEN_HORIZONTAL_RULE` case of `mdTokenCallback` (after its flush of
the pending text block): ensure a page exists, then push a separator
centered horizontally, at the cursor plus half the unscaled line height
`lh0`, with width 80% of the viewport width, and advance the cursor by
one unscaled line height — with no page-break check. -/
def hruleStep (lh0 : ℤ) (viewportWidth : ℤ) (st : AsmState) : AsmState :=
  let st1 : AsmState :=
    if st.hasPage then st else { st with cur := [], hasPage := true, nextY := 0 }
  let sepWidth : ℤ := viewportWidth * 80 / 100
  let sepX : ℤ := (viewportWidth - sepWidth) / 2
  { st1 with cur := st1.cur ++ [PElem.separator sepX (st1.nextY + lh0 / 2) sepWidth]
             nextY := st1.nextY + lh0 }

/-- One assembler-level event of a build pass: a flushed text block with
its style and its wrapped line count, a horizontal rule, or a bare cursor
advance (paragraph spacing). -/
inductive AsmOp where
  | block (bs : BlockStyle) (numLines : ℕ)
  | hrule
  | spacing (d : ℤ)
  deriving Repr

/-- Interpretation of one assembler event. -/
def runOp (lh lh0 vh vw : ℤ) (eps : Bool) (st : AsmState) : AsmOp → AsmState
  | AsmOp.block bs n => makePages lh vh eps bs n st
  | AsmOp.hrule => hruleStep lh0 vw st
  | AsmOp.spacing d => { st with nextY := st.nextY + d }

/-- A whole build pass at assembler level: run the events, then (as at
the end of `parseAndBuildPages`) emit the in-progress page if one
exists. -/
def runBuild (lh lh0 vh vw : ℤ) (eps : Bool) (ops : List AsmOp) : List (List PElem) :=
  let fin := ops.foldl (runOp lh lh0 vh vw eps) {}
  fin.pages ++ (if fin.hasPage then [fin.cur] else [])

/-- The height-invariant claimed for every placed element: a line placed
at `y` occupies `[y, y + lh]` and must end at or above the viewport
bottom; a separator drawn at `y` must at least lie at or above the
viewport bottom. -/
def elemWithinViewport (lh vh : ℤ) : PElem → Prop
  | PElem.line _ y => y + lh ≤ vh
  | PElem.separator _ y _ => y ≤ vh

instance (lh vh : ℤ) (e : PElem) : Decidable (elemWithinViewport lh vh e) := by
  cases e <;> simp [elemWithinViewport] <;> infer_instance

/-- Line splitting of one chunk, embedded from the inner loop of
`MarkdownParser::parseAndBuildPages`: bytes are appended to the carried
line buffer, `\r` is skipped, and each `\n` emits the buffered line to
the tokenizer.  Returns the emitted lines and the new carry buffer. -/
def feedChunk (buf : List Char) : List Char → List (List Char) × List Char
  | [] => ([], buf)
  | c :: cs =>
    if c = '\n' then
      let r := feedChunk [] cs
      (buf :: r.1, r.2)
    else if c = '\r' then feedChunk buf cs
    else feedChunk (buf ++ [c]) cs

/-- The chunked read loop of `MarkdownParser::parseAndBuildPages`.  Each
entry models one `readContent` call: `some bytes` is a successful read of
the next chunk, `none` a failed read.  A failed read executes `break`:
the loop stops, keeping the lines and carry buffer accumulated so far. -/
def readLoop : List (Option (List Char)) → List Char → List (List Char) →
    List (List Char) × List Char
  | [], buf, acc => (acc, buf)
  | none :: _, buf, acc => (acc, buf)
  | some ch :: rest, buf, acc =>
    let r := feedChunk buf ch
    readLoop rest r.2 (acc ++ r.1)

/-- Control flow of `MarkdownParser::parseAndBuildPages`, abstracted to
the lines fed to the tokenizer: a failed allocation of the chunk read
buffer returns failure before anything is read; otherwise the chunk loop
runs (stopping early on a failed read), the remaining carry buffer is
parsed as a final line if non-empty, the tokenizer is finished, pending
text is flushed, and the function returns success. -/
def parseAndBuildPages (allocOk : Bool) (chunks : List (Option (List Char))) :
    Bool × List (List Char) :=
  if allocOk then
    let r := readLoop chunks [] []
    (true, r.1 ++ (if r.2 = [] then [] else [r.2]))
  else
    (false, [])

/-- Outcome of `MdReaderActivity::createSectionCache` around the parser
call (lines 452-457): when `parseAndBuildPages` reports failure the cache
file is removed and failure returned; otherwise the cache is finalized
and kept.  Returns `(success, fileRemoved)`. -/
def createCacheOutcome (parserOk : Bool) : Bool × Bool :=
  if parserOk then (true, false) else (false, true)

/-- Content successfully read before the first failing chunk read. -/
def contentBeforeFailure : List (Option (List Char)) → List Char
  | [] => []
  | none :: _ => []
  | some ch :: rest => ch ++ contentBeforeFailure rest

/-- Inline token kinds emitted by `parse_inline` (`md_token_type`),
carrying the referenced text slice where the C token does. -/
inductive MdTok where
  | text (s : List Char)
  | codeSpan (s : List Char)
  | linkText (s : List Char)
  | linkUrl (s : List Char)
  | italicStart
  | italicEnd
  | boldStart
  | boldEnd
  | boldItalicStart
  | boldItalicEnd
  deriving DecidableEq, Repr

/-- The backquote character (code point 96). -/
def backquote : Char := Char.ofNat 96

/-- Characters at which the plain-text scan of `parse_inline` stops. -/
def isSpecial (c : Char) : Bool :=
  c == '*' || c == '_' || c == backquote || c == '['

/-- First index (if any) at which a run of `n` copies of marker `m`
starts, mirroring the closing-run search loops of `parse_inline` (their
window condition `end + (n-1) < len` is equivalent to `j + n ≤ length`). -/
def findClose (n : ℕ) (m : Char) : List Char → Option ℕ
  | [] => none
  | c :: rest =>
    if (c :: rest).take n = List.replicate n m then some 0
    else (findClose n m rest).map (· + 1)

/-- Start token for an emphasis run of length `n` (1, 2 or 3). -/
def emphStartTok : ℕ → MdTok
  | 1 => MdTok.italicStart
  | 2 => MdTok.boldStart
  | _ => MdTok.boldItalicStart

/-- End token for an emphasis run of length `n` (1, 2 or 3). -/
def emphEndTok : ℕ → MdTok
  | 1 => MdTok.italicEnd
  | 2 => MdTok.boldEnd
  | _ => MdTok.boldItalicEnd

/-- Recursive inline scanner, embedded from `parse_inline` in
`md_parser.c`: code spans, links, emphasis runs of one to three
identical `*`/`_` markers (matched runs recurse on the enclosed slice;
unmatched runs fall back to one literal text token of the whole run),
and maximal plain-text runs. -/
def parse_inline : List Char → List MdTok
  | [] => []
  | c :: rest =>
    if c = backquote then
      match rest.findIdx? (fun d => d == backquote) with
      | some j => MdTok.codeSpan (rest.take j) :: parse_inline (rest.drop (j + 1))
      | none => MdTok.text [c] :: parse_inline rest
    else if c = '[' then
      match rest.findIdx? (fun d => d == ']') with
      | some j =>
        if rest.get? (j + 1) = some '(' then
          match (rest.drop (j + 2)).findIdx? (fun d => d == ')') with
          | some k =>
            MdTok.linkText (rest.take j) :: MdTok.linkUrl ((rest.drop (j + 2)).take k) ::
              parse_inline (rest.drop (j + 2 + k + 1))
          | none => MdTok.text [c] :: parse_inline rest
        else MdTok.text [c] :: parse_inline rest
      | none => MdTok.text [c] :: parse_inline rest
    else if c = '*' ∨ c = '_' then
      match findClose (min 3 (1 + (rest.takeWhile (fun d => d == c)).length)) c
          ((c :: rest).drop (min 3 (1 + (rest.takeWhile (fun d => d == c)).length))) with
      | some j =>
        emphStartTok (min 3 (1 + (rest.takeWhile (fun d => d == c)).length)) ::
          (parse_inline (((c :: rest).drop
              (min 3 (1 + (rest.takeWhile (fun d => d == c)).length))).take j) ++
            (emphEndTok (min 3 (1 + (rest.takeWhile (fun d => d == c)).length)) ::
              parse_inline (((c :: rest).drop
                (min 3 (1 + (rest.takeWhile (fun d => d == c)).length))).drop
                  (j + min 3 (1 + (rest.takeWhile (fun d => d == c)).length)))))
      | none =>
        MdTok.text ((c :: rest).take (min 3 (1 + (rest.takeWhile (fun d => d == c)).length))) ::
          parse_inline ((c :: rest).drop (min 3 (1 + (rest.takeWhile (fun d => d == c)).length)))
    else
      MdTok.text (c :: rest.takeWhile (fun d => !(isSpecial d))) ::
        parse_inline (rest.dropWhile (fun d => !(isSpecial d)))
termination_by t => t.length
decreasing_by
  all_goals simp [List.length_take, List.length_drop]
  all_goals first
    | omega
    | exact Nat.lt_succ_of_le (by
        have hgen : ∀ (l : List Char), (List.dropWhile (fun d => !isSpecial d) l).length ≤ l.length := by
          intro l
          induction l with
          | nil => simp [List.dropWhile]
          | cons a l ih =>
            rw [List.dropWhile_cons]
            split
            · exact Nat.le_trans ih (Nat.le_succ _)
            · exact Nat.le_refl _
        exact hgen _)

/-- A code point interval of the glyph table (`EpdUnicodeInterval`):
code points `first..last` map to the contiguous glyph records at
`offset ..` in the glyph array. -/
structure EpdUnicodeInterval where
  first : ℕ
  last : ℕ
  offset : ℕ
  deriving DecidableEq, Repr

/-- The binary search loop of `EpdFont::getGlyph`, with the C `int`
bounds `left`/`right` as integers: returns the glyph array index
`interval.offset + (cp - interval.first)` on a hit. -/
def glyphBinarySearch (ivs : List EpdUnicodeInterval) (cp : ℕ) (lo hi : ℤ) : Option ℕ :=
  if _h : lo ≤ hi then
    match ivs.get? (lo + (hi - lo) / 2).toNat with
    | none => none
    | some iv =>
      if cp < iv.first then glyphBinarySearch ivs cp lo (lo + (hi - lo) / 2 - 1)
      else if iv.last < cp then glyphBinarySearch ivs cp (lo + (hi - lo) / 2 + 1) hi
      else some (iv.offset + (cp - iv.first))
  else none
termination_by (hi + 1 - lo).toNat
decreasing_by
  · have h2 : 0 ≤ (hi - lo) / 2 := Int.ediv_nonneg (by omega) (by norm_num)
    have h3 : (hi - lo) / 2 ≤ hi - lo := Int.ediv_le_self _ (by omega)
    omega
  · have h2 : 0 ≤ (hi - lo) / 2 := Int.ediv_nonneg (by omega) (by norm_num)
    have h3 : (hi - lo) / 2 ≤ hi - lo := Int.ediv_le_self _ (by omega)
    omega

/-- Glyph lookup, embedded from `EpdFont::getGlyph`: empty interval table
returns not-found, else binary search over `0 .. count - 1`. -/
def getGlyph (ivs : List EpdUnicodeInterval) (cp : ℕ) : Option ℕ :=
  if ivs.length = 0 then none
  else glyphBinarySearch ivs cp 0 ((ivs.length : ℤ) - 1)

/-- Modelled from the spec: the fixed replacement code point substituted
on a lookup miss.  Its numeric value is defined in `EpdFont.h`, which is
not under `src/`; only its fixedness matters here. -/
def REPLACEMENT_GLYPH : ℕ := 65533

/-- Caller-side substitution on a miss, embedded from
`EpdFont::getTextBounds`: when `getGlyph` returns not-found, the lookup
is retried with the fixed replacement code point. -/
def glyphOrReplacement (ivs : List EpdUnicodeInterval) (cp : ℕ) : Option ℕ :=
  match getGlyph ivs cp with
  | some g => some g
  | none => getGlyph ivs REPLACEMENT_GLYPH

/-- Well-formedness of the interval table: intervals are non-empty
(`first ≤ last`) and strictly ordered and disjoint (each interval ends
before the next begins). -/
def IntervalsSorted (ivs : List EpdUnicodeInterval) : Prop :=
  (∀ i iv, ivs.get? i = some iv → iv.first ≤ iv.last) ∧
  (∀ i j ivi ivj, ivs.get? i = some ivi → ivs.get? j = some ivj → i < j →
    ivi.last < ivj.first)

/-- Modelled from the spec: `serialization::writePod` byte encodings
(the helper lives outside `src/`; §6 fixes the field widths:
`u8`, `i32`, `f32`, `u8(bool)`, `u16`, `u32`).  Bytes are listed
least-significant first; the `f32` is carried as its 32-bit pattern. -/
def encU8 (n : ℕ) : List ℕ := [n % 256]

/-- Two-byte encoding of a `uint16_t` value. -/
def encU16 (n : ℕ) : List ℕ := [n % 256, n / 256 % 256]

/-- Four-byte encoding of a `uint32_t` value. -/
def encU32 (n : ℕ) : List ℕ :=
  [n % 256, n / 256 % 256, n / 65536 % 256, n / 16777216 % 256]

/-- Four-byte two's-complement encoding of an `int32_t` value. -/
def encI32 (z : ℤ) : List ℕ := encU32 (z % 4294967296).toNat

/-- One-byte encoding of a `bool` value. -/
def encBool (b : Bool) : List ℕ := [if b then 1 else 0]

/-- Reads one byte (`readPod` on a `uint8_t`), returning the value and
the remaining stream. -/
def decU8 : List ℕ → Option (ℕ × List ℕ)
  | [] => none
  | b :: rest => some (b % 256, rest)

/-- Reads a `uint16_t`. -/
def decU16 : List ℕ → Option (ℕ × List ℕ)
  | b0 :: b1 :: rest => some (b0 % 256 + 256 * (b1 % 256), rest)
  | _ => none

/-- Reads a `uint32_t`. -/
def decU32 : List ℕ → Option (ℕ × List ℕ)
  | b0 :: b1 :: b2 :: b3 :: rest =>
    some (b0 % 256 + 256 * (b1 % 256) + 65536 * (b2 % 256) + 16777216 * (b3 % 256), rest)
  | _ => none

/-- Reads an `int32_t` (two's complement). -/
def decI32 (bs : List ℕ) : Option (ℤ × List ℕ) :=
  (decU32 bs).map (fun r => (if r.1 < 2147483648 then (r.1 : ℤ) else (r.1 : ℤ) - 4294967296, r.2))

/-- Reads a `bool` (a byte written by `writePod` on a `bool`). -/
def decBool (bs : List ℕ) : Option (Bool × List ℕ) :=
  (decU8 bs).map (fun r => (decide (r.1 ≠ 0), r.2))

/-- The rendering-parameter fingerprint stored in the section cache
header: font id, line-compression factor, extra-paragraph-spacing flag,
paragraph alignment, viewport width and height, hyphenation flag.  The
`float` line compression is carried as its 32-bit pattern, so its C++
`!=` comparison is modelled bitwise. -/
structure Fingerprint where
  fontId : ℤ
  lineCompression : ℕ
  extraParagraphSpacing : Bool
  paragraphAlignment : ℕ
  viewportWidth : ℕ
  viewportHeight : ℕ
  hyphenationEnabled : Bool
  deriving DecidableEq, Repr

/-- Field ranges of the fingerprint's on-disk types. -/
def Fingerprint.wf (p : Fingerprint) : Prop :=
  -2147483648 ≤ p.fontId ∧ p.fontId < 2147483648 ∧
  p.lineCompression < 4294967296 ∧
  p.paragraphAlignment < 256 ∧
  p.viewportWidth < 65536 ∧ p.viewportHeight < 65536

instance (p : Fingerprint) : Decidable p.wf := by unfold Fingerprint.wf; infer_instance

/-- Byte encoding of the fingerprint fields, in the fixed write order of
`createSectionCache`. -/
def encFingerprint (p : Fingerprint) : List ℕ :=
  encI32 p.fontId ++ encU32 p.lineCompression ++ encBool p.extraParagraphSpacing ++
    encU8 p.paragraphAlignment ++ encU16 p.viewportWidth ++ encU16 p.viewportHeight ++
    encBool p.hyphenationEnabled

/-- Sequential decode of the fingerprint fields, in the fixed read order
of `loadSectionCache`. -/
def decFingerprint (bs : List ℕ) : Option (Fingerprint × List ℕ) :=
  match decI32 bs with
  | none => none
  | some (fontId, r1) =>
    match decU32 r1 with
    | none => none
    | some (lineCompression, r2) =>
      match decBool r2 with
      | none => none
      | some (eps, r3) =>
        match decU8 r3 with
        | none => none
        | some (pa, r4) =>
          match decU16 r4 with
          | none => none
          | some (vw, r5) =>
            match decU16 r5 with
            | none => none
            | some (vh, r6) =>
              match decBool r6 with
              | none => none
              | some (hy, r7) =>
                some (⟨fontId, lineCompression, eps, pa, vw, vh, hy⟩, r7)

/-- The section cache file format version (`SECTION_FILE_VERSION`). -/
def SECTION_FILE_VERSION : ℕ := 1

/-- Size in bytes of the cache header (`HEADER_SIZE` = 1+4+4+1+1+2+2+1+2+4). -/
def HEADER_SIZE : ℕ := 22

/-- A serialized page record.  Modelled from the spec: `Page::serialize`
lives outside `src/`; per §3 and §9 a page is an ordered element
sequence, each element identified by a tag byte and positioned at
`(x, y)`, so the record is an element count (`u16`) followed by
`tag:u8, x:i16, y:i16` per element. -/
structure PageEl where
  tag : ℕ
  x : ℤ
  y : ℤ
  deriving DecidableEq, Repr

/-- A page as stored in the cache: its element list. -/
abbrev PageRec : Type := List PageEl

/-- Field ranges of a page element's on-disk types. -/
def PageEl.wf (e : PageEl) : Prop :=
  e.tag < 256 ∧ -32768 ≤ e.x ∧ e.x < 32768 ∧ -32768 ≤ e.y ∧ e.y < 32768

instance (e : PageEl) : Decidable e.wf := by unfold PageEl.wf; infer_instance

/-- Two-byte two's-complement encoding of an `int16_t` value. -/
def encI16 (z : ℤ) : List ℕ := encU16 (z % 65536).toNat

/-- Reads an `int16_t` (two's complement). -/
def decI16 (bs : List ℕ) : Option (ℤ × List ℕ) :=
  (decU16 bs).map (fun r => (if r.1 < 32768 then (r.1 : ℤ) else (r.1 : ℤ) - 65536, r.2))

/-- Byte encoding of one page element. -/
def encPageEl (e : PageEl) : List ℕ := encU8 e.tag ++ encI16 e.x ++ encI16 e.y

/-- Byte encoding of one page record. -/
def encPage (p : PageRec) : List ℕ := encU16 p.length ++ (p.map encPageEl).flatten

/-- Reads `k` page elements. -/
def decPageEls : ℕ → List ℕ → Option (List PageEl × List ℕ)
  | 0, bs => some ([], bs)
  | k + 1, bs =>
    match decU8 bs with
    | none => none
    | some (tag, r1) =>
      match decI16 r1 with
      | none => none
      | some (x, r2) =>
        match decI16 r2 with
        | none => none
        | some (y, r3) =>
          match decPageEls k r3 with
          | none => none
          | some (es, r4) => some (⟨tag, x, y⟩ :: es, r4)

/-- Reads one page record (`Page::deserialize`): element count, then
that many elements.  Reads exactly the bytes of one page. -/
def decPage (bs : List ℕ) : Option (PageRec × List ℕ) :=
  match decU16 bs with
  | none => none
  | some (count, r1) => decPageEls count r1

/-- A byte file with a read/write position, standing in for the storage
abstraction's `FsFile` (open/write/seek/position): `write` overwrites at
the current position (appending past the end) and advances it, `seek`
moves the position, `position` reads it. -/
structure MFile where
  data : List ℕ
  pos : ℕ
  deriving Repr

/-- Overwrite bytes of `data` starting at `pos`. -/
def overwriteAt (data : List ℕ) (pos : ℕ) (bs : List ℕ) : List ℕ :=
  data.take pos ++ bs ++ data.drop (pos + bs.length)

/-- Write bytes at the current position and advance it. -/
def MFile.write (f : MFile) (bs : List ℕ) : MFile :=
  { data := overwriteAt f.data f.pos bs, pos := f.pos + bs.length }

/-- Move the read/write position. -/
def MFile.seek (f : MFile) (p : ℕ) : MFile := { f with pos := p }

/-- Cache build, embedded from `MdReaderActivity::createSectionCache`:
write version and fingerprint, write zero placeholders for page count
and LUT offset; for each page record the current stream position into
the in-memory LUT and serialize the page; then write the LUT at the
current position, seek back and overwrite the placeholders with the
real page count and LUT offset.  Returns the file, the in-memory LUT
and `totalPages`. -/
def createSectionCache (p : Fingerprint) (pages : List PageRec) : MFile × List ℕ × ℕ :=
  let f0 : MFile := ⟨[], 0⟩
  let f1 := ((((f0.write (encU8 SECTION_FILE_VERSION)).write (encFingerprint p)).write
    (encU16 0)).write (encU32 0))
  let fl := pages.foldl
    (fun (acc : MFile × List ℕ) page => ((acc.1.write (encPage page)), acc.2 ++ [acc.1.pos]))
    (f1, [])
  let pageCount := fl.2.length
  let lutOffset := fl.1.pos
  let f2 := fl.2.foldl (fun (f : MFile) e => f.write (encU32 e)) fl.1
  let f3 := ((f2.seek (HEADER_SIZE - 4 - 2)).write (encU16 pageCount)).write (encU32 lutOffset)
  (f3, fl.2, pageCount)

/-- Result of a cache load: `ok` carries the page count and LUT on a
valid cache (`loadSectionCache` returned `true`), `removed` records
whether the stale file was deleted (`Storage.remove`). -/
structure LoadResult where
  ok : Option (ℕ × List ℕ)
  removed : Bool
  deriving DecidableEq, Repr

/-- Reads `k` LUT entries. -/
def decLutEntries : ℕ → List ℕ → Option (List ℕ)
  | 0, _ => some []
  | k + 1, bs =>
    match decU32 bs with
    | none => none
    | some (v, r) =>
      match decLutEntries k r with
      | none => none
      | some vs => some (v :: vs)

/-- Cache validation and load, embedded from
`MdReaderActivity::loadSectionCache`: read the version byte — a mismatch
returns invalid without deleting; read the seven fingerprint fields — any
mismatch against the caller's parameters deletes the stale file and
returns invalid; else read page count and LUT offset, seek to the LUT
and read `pageCount` offsets. -/
def loadSectionCache (data : List ℕ) (cur : Fingerprint) : LoadResult :=
  match decU8 data with
  | none => ⟨none, false⟩
  | some (version, r1) =>
    if version ≠ SECTION_FILE_VERSION then ⟨none, false⟩
    else
      match decFingerprint r1 with
      | none => ⟨none, false⟩
      | some (fp, r2) =>
        if fp ≠ cur then ⟨none, true⟩
        else
          match decU16 r2 with
          | none => ⟨none, false⟩
          | some (pageCount, r3) =>
            match decU32 r3 with
            | none => ⟨none, false⟩
            | some (lutOffset, _) =>
              match decLutEntries pageCount (data.drop lutOffset) with
              | none => ⟨none, false⟩
              | some lut => ⟨some (pageCount, lut), false⟩

/-- Random page access, embedded from
`MdReaderActivity::loadPageFromCache`: bounds-check the index against
the in-memory LUT, seek directly to `LUT[i]` and deserialize exactly one
page. -/
def loadPageFromCache (data : List ℕ) (lut : List ℕ) (i : ℕ) : Option PageRec :=
  match lut.get? i with
  | none => none
  | some off => (decPage (data.drop off)).map (fun r => r.1)

/-- Effective layout width handed to the external line breaker,
embedded from `MarkdownParser::makePages`: `viewportWidth` is a
`uint16_t`; when the signed combined inset is (strictly) less than
the viewport width, the difference is truncated back to `uint16_t`,
otherwise the full viewport width is used. -/
def makePagesEffectiveWidth (viewportWidth : ℕ) (bs : BlockStyle) : ℕ :=
  let horizontalInset : ℤ := bs.totalHorizontalInset
  if horizontalInset < (viewportWidth : ℤ) then
    (((viewportWidth : ℤ) - horizontalInset) % 65536).toNat
  else
    viewportWidth

/-- The weaker per-element height bound that does hold: line elements end
at or above the viewport bottom; separators are unconstrained (they are
placed with no page-break check). -/
def lineWithin (lh vh : ℤ) : PElem → Prop
  | PElem.line _ y => y + lh ≤ vh
  | PElem.separator _ _ _ => True

instance (lh vh : ℤ) (e : PElem) : Decidable (lineWithin lh vh e) := by
  cases e <;> simp [lineWithin] <;> infer_instance

/-- Assembler-state invariant: every element already emitted or on the
page under construction satisfies the per-line height bound. -/
def asmInv (lh vh : ℤ) (st : AsmState) : Prop :=
  (∀ p ∈ st.pages, ∀ e ∈ p, lineWithin lh vh e) ∧ (∀ e ∈ st.cur, lineWithin lh vh e)

/-- Serialized bytes of a list of pages, in order. -/
def pagesBytes (ps : List PageRec) : List ℕ := (ps.map encPage).flatten

/-- Byte offsets at which successive page records start, given the
offset of the first. -/
def pageOffsets (base : ℕ) : List PageRec → List ℕ
  | [] => []
  | p :: ps => base :: pageOffsets (base + (encPage p).length) ps

/-- Serialized bytes of the LUT. -/
def lutBytes (lut : List ℕ) : List ℕ := (lut.map encU32).flatten

/-- The stream position immediately before page `i` is written: header
size plus the sizes of the previously serialized pages. -/
def posBeforePage (ps : List PageRec) (i : ℕ) : ℕ :=
  HEADER_SIZE + (pagesBytes (ps.take i)).length

/-- Field ranges of a page record's on-disk types: every element in
range and the element count representable as `u16`. -/
def PageRec.wf (p : PageRec) : Prop :=
  (∀ e ∈ p, e.wf) ∧ List.length p < 65536

instance (p : PageRec) : Decidable p.wf := by unfold PageRec.wf; infer_instance

/-! ## Supporting lemmas -/

theorem wrap16_add_assoc (x y z : ℤ) :
    wrap16 (x + wrap16 (y + z)) = wrap16 (wrap16 (x + y) + z) := by
  unfold wrap16; omega

theorem wrap16_of_range (x : ℤ) (h1 : -32768 ≤ x) (h2 : x ≤ 32767) : wrap16 x = x := by
  unfold wrap16; omega

/-! ## Claim C5 — block style composition -/

/-- C5 counterexample: composition is not idempotent as claimed — for a
child style with `marginTop = 1`, re-applying the child to the combined
style adds its margin again. -/
theorem claim_C5_counterexample :
    (({} : BlockStyle).getCombinedBlockStyle { marginTop := 1 }).getCombinedBlockStyle
        { marginTop := 1 } ≠
      ({} : BlockStyle).getCombinedBlockStyle { marginTop := 1 } := by
  decide

/-- C5 (amended): `getCombinedBlockStyle` is associative; re-applying a
child `C` to the combined style `P∘C` leaves it unchanged when all of
`C`'s margins and paddings are zero (otherwise they are summed in
again, so idempotence fails in general). -/
theorem claim_C5_composition :
    (∀ a b c : BlockStyle,
      (a.getCombinedBlockStyle b).getCombinedBlockStyle c =
        a.getCombinedBlockStyle (b.getCombinedBlockStyle c)) ∧
    (∀ P C : BlockStyle,
      C.marginTop = 0 → C.marginBottom = 0 → C.marginLeft = 0 → C.marginRight = 0 →
      C.paddingTop = 0 → C.paddingBottom = 0 → C.paddingLeft = 0 → C.paddingRight = 0 →
      (P.getCombinedBlockStyle C).getCombinedBlockStyle C = P.getCombinedBlockStyle C) := by
  constructor
  · intro a b c
    simp only [BlockStyle.getCombinedBlockStyle, BlockStyle.mk.injEq]
    refine ⟨?_, ?_, ?_, ?_, ?_, ?_, ?_, ?_, ?_, ?_, ?_, ?_, ?_⟩ <;>
      first
        | (unfold wrap16; omega)
        | ((by_cases h1 : c.textAlignDefined <;> by_cases h2 : b.textAlignDefined <;>
            simp [h1, h2]); done)
        | ((by_cases h1 : c.textIndentDefined <;> by_cases h2 : b.textIndentDefined <;>
            simp [h1, h2]); done)
        | ((by_cases h1 : c.hangingIndent = 0 <;> by_cases h2 : b.hangingIndent = 0 <;>
            simp [h1, h2]); done)
  · intro P C h1 h2 h3 h4 h5 h6 h7 h8
    simp only [BlockStyle.getCombinedBlockStyle, BlockStyle.mk.injEq, h1, h2, h3, h4,
      h5, h6, h7, h8]
    refine ⟨?_, ?_, ?_, ?_, ?_, ?_, ?_, ?_, ?_, ?_, ?_, ?_, ?_⟩ <;>
      first
        | (unfold wrap16; omega)
        | ((by_cases hC : C.textAlignDefined <;> simp [hC]); done)
        | ((by_cases hC : C.textIndentDefined <;> simp [hC]); done)
        | ((by_cases hC : C.hangingIndent = 0 <;> simp [hC]); done)

/-- C5 witness: the amended theorem applied at concrete styles. -/
theorem claim_C5_composition_witness :
    ((({ marginTop := 5 } : BlockStyle).getCombinedBlockStyle
        { marginLeft := 3, textAlignDefined := true }).getCombinedBlockStyle
          { hangingIndent := 2 } =
      ({ marginTop := 5 } : BlockStyle).getCombinedBlockStyle
        (({ marginLeft := 3, textAlignDefined := true } : BlockStyle).getCombinedBlockStyle
          { hangingIndent := 2 })) ∧
    ((({ marginTop := 7 } : BlockStyle).getCombinedBlockStyle
        { textIndent := 2, textIndentDefined := true }).getCombinedBlockStyle
          { textIndent := 2, textIndentDefined := true } =
      ({ marginTop := 7 } : BlockStyle).getCombinedBlockStyle
        { textIndent := 2, textIndentDefined := true }) :=
  ⟨claim_C5_composition.1 _ _ _,
   claim_C5_composition.2 _ _ rfl rfl rfl rfl rfl rfl rfl rfl⟩

/-! ## Claim C10 — effective layout width -/

/-- C10 counterexample: at list indent level 2184 (reachable from 4368
leading spaces), `15 * (level + 1)` wraps negative in `int16_t`, so the
combined inset is negative and the effective width exceeds the viewport
width instead of being capped by it. -/
theorem claim_C10_counterexample :
    ¬ makePagesEffectiveWidth 100 (listItemBlockStyle 2184 10) ≤ 100 := by
  decide

/-- C10 (amended): for a positive viewport width and a nonnegative
combined horizontal inset, the effective width handed to the line
breaker is positive and at most the viewport width; it is the viewport
width minus the insets when they are smaller than the viewport width,
and the full viewport width otherwise.  (A negative wrapped inset — see
the counterexample — escapes the cap.) -/
theorem claim_C10_effective_width (vw : ℕ) (bs : BlockStyle)
    (h1 : 0 < vw) (h2 : vw < 65536) (h3 : 0 ≤ bs.totalHorizontalInset) :
    0 < makePagesEffectiveWidth vw bs ∧ makePagesEffectiveWidth vw bs ≤ vw ∧
    (bs.totalHorizontalInset < (vw : ℤ) →
      (makePagesEffectiveWidth vw bs : ℤ) = (vw : ℤ) - bs.totalHorizontalInset) ∧
    ((vw : ℤ) ≤ bs.totalHorizontalInset → makePagesEffectiveWidth vw bs = vw) := by
  simp only [makePagesEffectiveWidth]
  by_cases hlt : bs.totalHorizontalInset < (vw : ℤ)
  · rw [if_pos hlt]
    exact ⟨by omega, by omega, fun hc => by omega, fun hc => by omega⟩
  · rw [if_neg hlt]
    exact ⟨by omega, by omega, fun hc => by omega, fun hc => by omega⟩

/-- C10 witness: the amended theorem applied at a 100-pixel viewport
and the default block style. -/
theorem claim_C10_effective_width_witness :
    0 < makePagesEffectiveWidth 100 ({} : BlockStyle) ∧
    makePagesEffectiveWidth 100 ({} : BlockStyle) ≤ 100 ∧
    (({} : BlockStyle).totalHorizontalInset < (100 : ℤ) →
      (makePagesEffectiveWidth 100 ({} : BlockStyle) : ℤ) =
        (100 : ℤ) - ({} : BlockStyle).totalHorizontalInset) ∧
    ((100 : ℤ) ≤ ({} : BlockStyle).totalHorizontalInset →
      makePagesEffectiveWidth 100 ({} : BlockStyle) = 100) :=
  claim_C10_effective_width 100 {} (by decide) (by decide) (by decide)

/-! ## Claim C3 — line placement boundary -/

/-- C3: `addLineToPage` boundary behavior — when the cursor plus one
line height strictly exceeds the viewport height, the current page is
finalized and the line opens a new page at cursor 0; when the sum
exactly equals the viewport height, the line is placed on the current
page at the cursor without a break; in both cases the cursor then sits
one line height below the line's position. -/
theorem claim_C3_addLineToPage (lh vh xOff : ℤ) (st : AsmState) :
    (st.nextY + lh > vh →
      addLineToPage lh vh xOff st =
        { pages := st.pages ++ [st.cur], cur := [PElem.line xOff 0],
          hasPage := st.hasPage, nextY := lh }) ∧
    (st.nextY + lh = vh →
      addLineToPage lh vh xOff st =
        { pages := st.pages, cur := st.cur ++ [PElem.line xOff st.nextY],
          hasPage := st.hasPage, nextY := st.nextY + lh }) := by
  constructor
  · intro h
    simp [addLineToPage, h]
  · intro h
    have hnot : ¬ st.nextY + lh > vh := by omega
    simp [addLineToPage, hnot]

/-- C3 witness: a one-pixel-over line (cursor 95, height 10, viewport
100) breaks the page; an exact-fit line (cursor 90) does not. -/
theorem claim_C3_addLineToPage_witness :
    (addLineToPage 10 100 7 ⟨[], [PElem.line 0 0], true, 95⟩ =
      { pages := [[PElem.line 0 0]], cur := [PElem.line 7 0],
        hasPage := true, nextY := 10 }) ∧
    (addLineToPage 10 100 7 ⟨[], [PElem.line 0 0], true, 90⟩ =
      { pages := [], cur := [PElem.line 0 0, PElem.line 7 90],
        hasPage := true, nextY := 100 }) :=
  ⟨(claim_C3_addLineToPage 10 100 7 _).1 (by decide),
   (claim_C3_addLineToPage 10 100 7 _).2 (by decide)⟩

/-! ## Claim C2 — read failure during the build pass -/

/-- C2: behavior of the code at a failing chunk read.  The claim (and
spec §4.2/§7) says a failed read aborts the pass, discards unflushed
content, surfaces failure, and deletes the partial cache file; the code
instead only breaks out of the chunk loop — the content read so far
(here the partial line `ab`) is still parsed and flushed, later content
(`cd`) is never read, `parseAndBuildPages` returns success, and
`createSectionCache` therefore keeps the cache file. -/
theorem claim_C2_read_failure_not_surfaced :
    parseAndBuildPages true [some ['a', 'b'], none, some ['c', 'd']] =
      (true, [['a', 'b']]) ∧
    createCacheOutcome
      (parseAndBuildPages true [some ['a', 'b'], none, some ['c', 'd']]).1 =
      (true, false) := by
  decide

/-! ## Claim C4 — page height invariant -/

theorem asmInv_addLineToPage {lh vh x : ℤ} {st : AsmState} (hlh : lh ≤ vh)
    (h : asmInv lh vh st) : asmInv lh vh (addLineToPage lh vh x st) := by
  obtain ⟨hp, hc⟩ := h
  unfold addLineToPage
  split
  · refine ⟨?_, ?_⟩
    · intro p hpp e hee
      rcases List.mem_append.mp hpp with hl | hr
      · exact hp p hl e hee
      · simp only [List.mem_singleton] at hr
        exact hc e (hr ▸ hee)
    · intro e he
      simp only [List.mem_singleton] at he
      subst he
      simp only [lineWithin]
      omega
  · refine ⟨hp, ?_⟩
    intro e he
    rcases List.mem_append.mp he with hl | hr
    · exact hc e hl
    · simp only [List.mem_singleton] at hr
      subst hr
      simp only [lineWithin]
      omega

theorem asmInv_iterate {lh vh x : ℤ} (hlh : lh ≤ vh) (n : ℕ) (st : AsmState)
    (h : asmInv lh vh st) :
    asmInv lh vh (Nat.rec st (fun _ acc => addLineToPage lh vh x acc) n) := by
  induction n with
  | zero => exact h
  | succ n ih => exact asmInv_addLineToPage hlh ih

theorem asmInv_setY {lh vh y : ℤ} {st : AsmState} (h : asmInv lh vh st) :
    asmInv lh vh { st with nextY := y } := ⟨h.1, h.2⟩

theorem asmInv_makePages {lh vh : ℤ} {eps : Bool} {bs : BlockStyle} {n : ℕ}
    {st : AsmState} (hlh : lh ≤ vh) (h : asmInv lh vh st) :
    asmInv lh vh (makePages lh vh eps bs n st) := by
  unfold makePages
  have h1 : asmInv lh vh
      (if st.hasPage then st else { st with cur := [], hasPage := true, nextY := 0 }) := by
    split
    · exact h
    · exact ⟨h.1, by intro e he; simp at he⟩
  exact asmInv_setY (asmInv_iterate hlh n _ (asmInv_setY h1))

theorem asmInv_hruleStep {lh vh lh0 vw : ℤ} {st : AsmState}
    (h : asmInv lh vh st) : asmInv lh vh (hruleStep lh0 vw st) := by
  unfold hruleStep
  have h1 : asmInv lh vh
      (if st.hasPage then st else { st with cur := [], hasPage := true, nextY := 0 }) := by
    split
    · exact h
    · exact ⟨h.1, by intro e he; simp at he⟩
  refine ⟨h1.1, ?_⟩
  intro e he
  rcases List.mem_append.mp he with hl | hr
  · exact h1.2 e hl
  · simp only [List.mem_singleton] at hr
    subst hr
    simp only [lineWithin]

theorem asmInv_runOp {lh lh0 vh vw : ℤ} {eps : Bool} {st : AsmState} (hlh : lh ≤ vh)
    (h : asmInv lh vh st) (op : AsmOp) : asmInv lh vh (runOp lh lh0 vh vw eps st op) := by
  cases op with
  | block bs n => exact asmInv_makePages hlh h
  | hrule => exact asmInv_hruleStep h
  | spacing d => exact ⟨h.1, h.2⟩

theorem asmInv_foldl (lh lh0 vh vw : ℤ) (eps : Bool) (hlh : lh ≤ vh) (ops : List AsmOp) :
    ∀ st : AsmState, asmInv lh vh st →
      asmInv lh vh (ops.foldl (runOp lh lh0 vh vw eps) st) := by
  induction ops with
  | nil => intro st h; exact h
  | cons op ops ih =>
    intro st h
    exact ih _ (asmInv_runOp hlh h op)

/-- C4 counterexample: with viewport height 100 and line height 10, a
block of ten exact-fit lines fills the page (cursor 100); the horizontal
rule that follows places its separator at `y = 105` on that same page —
beyond the viewport height, with no new page started first. -/
theorem claim_C4_counterexample :
    ¬ (∀ p ∈ runBuild 10 10 100 200 false [AsmOp.block {} 10, AsmOp.hrule],
        ∀ e ∈ p, elemWithinViewport 10 100 e) := by
  decide

/-- C4 (amended): if one line fits in the viewport (`lh ≤ vh`), then on
every page the assembler emits, every *line* element is placed so that it
ends at or above the viewport bottom (`y + lh ≤ vh`) — a page break
always precedes a line that would not fit.  The Separator element of a
horizontal rule is exempt: it is placed at the current cursor with no
page-break check (see the counterexample). -/
theorem claim_C4_line_height_invariant (lh lh0 vh vw : ℤ) (eps : Bool)
    (ops : List AsmOp) (hlh : lh ≤ vh) :
    ∀ p ∈ runBuild lh lh0 vh vw eps ops, ∀ e ∈ p, lineWithin lh vh e := by
  unfold runBuild
  have hinv := asmInv_foldl lh lh0 vh vw eps hlh ops {}
    ⟨by intro p hp; simp at hp, by intro e he; simp at he⟩
  intro p hp
  rcases List.mem_append.mp hp with hl | hr
  · exact hinv.1 p hl
  · split at hr
    · simp only [List.mem_singleton] at hr
      exact hr ▸ hinv.2
    · simp at hr

/-- C4 witness: the amended invariant applied to a one-line block with a
10-pixel line in a 100-pixel viewport. -/
theorem claim_C4_line_height_invariant_witness : lineWithin 10 100 (PElem.line 0 0) :=
  claim_C4_line_height_invariant 10 10 100 200 false [AsmOp.block {} 1] (by decide)
    [PElem.line 0 0] (by decide) (PElem.line 0 0) (by decide)

/-! ## Claim C6 — unmatched emphasis runs -/

theorem takeWhile_replicate_append (k : ℕ) (m : Char) (rest : List Char) :
    List.takeWhile (fun d => d == m) (List.replicate k m ++ rest) =
      List.replicate k m ++ List.takeWhile (fun d => d == m) rest := by
  induction k with
  | zero => simp
  | succ k ih => simp [List.replicate_succ, List.takeWhile_cons, ih]

theorem findClose_eq_none {n : ℕ} {m : Char} {t : List Char}
    (h : ∀ j, (t.drop j).take n ≠ List.replicate n m) : findClose n m t = none := by
  induction t with
  | nil => rfl
  | cons c rest ih =>
    unfold findClose
    rw [if_neg]
    · rw [ih]
      · rfl
      · intro j
        have := h (j + 1)
        simpa using this
    · have := h 0
      simpa using this

/-- C6: an opening run of `n` identical emphasis markers (`*` or `_`,
`1 ≤ n ≤ 3`, maximal when `n < 3`) with no matching closing run of the
same marker and length anywhere in the remaining text is emitted as
exactly one literal text token holding the whole run, and scanning
continues immediately after the run. -/
theorem claim_C6_unmatched_run_literal (m : Char) (n : ℕ) (rest : List Char)
    (hm : m = '*' ∨ m = '_') (hn1 : 1 ≤ n) (hn3 : n ≤ 3)
    (hmax : n = 3 ∨ rest.head? ≠ some m)
    (hnc : ∀ j, (rest.drop j).take n ≠ List.replicate n m) :
    parse_inline (List.replicate n m ++ rest) =
      MdTok.text (List.replicate n m) :: parse_inline rest := by
  obtain ⟨k, rfl⟩ : ∃ k, n = k + 1 := ⟨n - 1, by omega⟩
  have hmb : m ≠ backquote := by rcases hm with rfl | rfl <;> decide
  have hml : m ≠ '[' := by rcases hm with rfl | rfl <;> decide
  have hlen : (List.replicate k m).length = k := List.length_replicate _ _
  have hdrop : (List.replicate k m ++ rest).drop k = rest := List.drop_left' hlen
  have htake : (List.replicate k m ++ rest).take k = List.replicate k m :=
    List.take_left' hlen
  have hcount : min 3 (1 +
      (List.takeWhile (fun d => d == m) (List.replicate k m ++ rest)).length) = k + 1 := by
    rw [takeWhile_replicate_append]
    simp only [List.length_append, List.length_replicate]
    rcases hmax with h3 | hh
    · have hk : k = 2 := by omega
      subst hk
      omega
    · have htw : List.takeWhile (fun d => d == m) rest = [] := by
        cases rest with
        | nil => rfl
        | cons a as =>
          simp only [List.head?] at hh
          have hne : (a == m) = false := by
            simp only [beq_eq_false_iff_ne, ne_eq]
            intro hEq
            exact hh (by rw [hEq])
          simp [List.takeWhile_cons, hne]
      rw [htw]
      simp
      omega
  have hshape : List.replicate (k + 1) m ++ rest = m :: (List.replicate k m ++ rest) := by
    simp [List.replicate_succ]
  rw [hshape, parse_inline.eq_def]
  dsimp only
  rw [if_neg hmb, if_neg hml, if_pos hm, hcount]
  rw [List.drop_succ_cons, hdrop]
  rw [findClose_eq_none hnc]
  dsimp only
  rw [List.take_succ_cons, htake]
  simp [List.replicate_succ]

/-- C6 witness: the unmatched run `**` before the text `x` is emitted as
one two-character literal token. -/
theorem claim_C6_unmatched_run_literal_witness :
    parse_inline (List.replicate 2 '*' ++ ['x']) =
      MdTok.text (List.replicate 2 '*') :: parse_inline ['x'] :=
  claim_C6_unmatched_run_literal '*' 2 ['x'] (Or.inl rfl) (by decide) (by decide)
    (Or.inr (by decide))
    (by
      intro j
      intro hEq
      have := congrArg List.length hEq
      simp [List.length_take, List.length_drop] at this
      omega)

/-! ## Claim C9 — glyph interval lookup -/

theorem glyphBinarySearch_miss (ivs : List EpdUnicodeInterval) (cp : ℕ)
    (hmiss : ∀ iv ∈ ivs, cp < iv.first ∨ iv.last < cp) :
    ∀ fuel : ℕ, ∀ lo hi : ℤ, (hi + 1 - lo).toNat ≤ fuel →
      glyphBinarySearch ivs cp lo hi = none := by
  intro fuel
  induction fuel with
  | zero =>
    intro lo hi hf
    have hgt : ¬ lo ≤ hi := by omega
    unfold glyphBinarySearch
    rw [dif_neg hgt]
  | succ fuel ih =>
    intro lo hi hf
    by_cases hle : lo ≤ hi
    · unfold glyphBinarySearch
      rw [dif_pos hle]
      have hm1 : 0 ≤ (hi - lo) / 2 := Int.ediv_nonneg (by omega) (by norm_num)
      have hm2 : (hi - lo) / 2 ≤ hi - lo := Int.ediv_le_self _ (by omega)
      cases hg : ivs.get? (lo + (hi - lo) / 2).toNat with
      | none => rfl
      | some iv =>
        dsimp only
        have hmem : iv ∈ ivs := List.get?_mem hg
        by_cases hc1 : cp < iv.first
        · rw [if_pos hc1]
          exact ih lo (lo + (hi - lo) / 2 - 1) (by omega)
        · have hc2 : iv.last < cp := by
            rcases hmiss iv hmem with h | h
            · exact absurd h hc1
            · exact h
          rw [if_neg hc1, if_pos hc2]
          exact ih (lo + (hi - lo) / 2 + 1) hi (by omega)
    · unfold glyphBinarySearch
      rw [dif_neg hle]

theorem glyphBinarySearch_hit (ivs : List EpdUnicodeInterval) (cp : ℕ)
    (he : ∀ i iv, ivs.get? i = some iv → iv.first ≤ iv.last)
    (hs : ∀ i j ivi ivj, ivs.get? i = some ivi → ivs.get? j = some ivj → i < j →
      ivi.last < ivj.first) :
    ∀ fuel : ℕ, ∀ lo hi : ℤ, (hi + 1 - lo).toNat ≤ fuel → 0 ≤ lo →
      hi < (ivs.length : ℤ) →
      ∀ k iv, ivs.get? k = some iv → iv.first ≤ cp → cp ≤ iv.last →
        lo ≤ (k : ℤ) → (k : ℤ) ≤ hi →
        glyphBinarySearch ivs cp lo hi = some (iv.offset + (cp - iv.first)) := by
  intro fuel
  induction fuel with
  | zero =>
    intro lo hi hf h0 hlen k iv hk hf1 hf2 hklo hkhi
    omega
  | succ fuel ih =>
    intro lo hi hf h0 hlen k iv hk hf1 hf2 hklo hkhi
    have hle : lo ≤ hi := by omega
    have hm1 : 0 ≤ (hi - lo) / 2 := Int.ediv_nonneg (by omega) (by norm_num)
    have hm2 : (hi - lo) / 2 ≤ hi - lo := Int.ediv_le_self _ (by omega)
    have hMz : ((lo + (hi - lo) / 2).toNat : ℤ) = lo + (hi - lo) / 2 :=
      Int.toNat_of_nonneg (by omega)
    have hMlt : (lo + (hi - lo) / 2).toNat < ivs.length := by omega
    obtain ⟨ivm, hgm⟩ : ∃ x, ivs.get? (lo + (hi - lo) / 2).toNat = some x := by
      cases hx : ivs.get? (lo + (hi - lo) / 2).toNat with
      | none =>
        rw [List.get?_eq_none] at hx
        omega
      | some x => exact ⟨x, rfl⟩
    unfold glyphBinarySearch
    rw [dif_pos hle]
    rw [hgm]
    dsimp only
    by_cases hc1 : cp < ivm.first
    · rw [if_pos hc1]
      have hkM : k < (lo + (hi - lo) / 2).toNat := by
        rcases Nat.lt_trichotomy k ((lo + (hi - lo) / 2).toNat) with h | h | h
        · exact h
        · subst h
          rw [hk] at hgm
          cases hgm
          omega
        · have hlf := hs _ _ _ _ hgm hk h
          have hfl := he _ _ hgm
          omega
      exact ih lo (lo + (hi - lo) / 2 - 1) (by omega) h0 (by omega) k iv hk hf1 hf2 hklo
        (by omega)
    · by_cases hc2 : ivm.last < cp
      · rw [if_neg hc1, if_pos hc2]
        have hkM : (lo + (hi - lo) / 2).toNat < k := by
          rcases Nat.lt_trichotomy k ((lo + (hi - lo) / 2).toNat) with h | h | h
          · have hlf := hs _ _ _ _ hk hgm h
            have hfl := he _ _ hgm
            omega
          · subst h
            rw [hk] at hgm
            cases hgm
            omega
          · exact h
        exact ih (lo + (hi - lo) / 2 + 1) hi (by omega) (by omega) hlen k iv hk hf1 hf2
          (by omega) hkhi
      · rw [if_neg hc1, if_neg hc2]
        have hkM : k = (lo + (hi - lo) / 2).toNat := by
          rcases Nat.lt_trichotomy k ((lo + (hi - lo) / 2).toNat) with h | h | h
          · have hlf := hs _ _ _ _ hk hgm h
            omega
          · exact h
          · have hlf := hs _ _ _ _ hgm hk h
            omega
        subst hkM
        rw [hk] at hgm
        cases hgm
        rfl

/-- C9: for a sorted, disjoint interval table, `getGlyph` returns the
record index `interval.offset + (cp - interval.first)` for every code
point inside an interval (boundaries included), returns not-found for
every code point outside all intervals, and on such a miss the caller's
substitution retries the lookup with the fixed replacement code point. -/
theorem claim_C9_glyph_lookup (ivs : List EpdUnicodeInterval) (cp : ℕ)
    (hs : IntervalsSorted ivs) :
    (∀ k iv, ivs.get? k = some iv → iv.first ≤ cp → cp ≤ iv.last →
      getGlyph ivs cp = some (iv.offset + (cp - iv.first))) ∧
    ((∀ iv ∈ ivs, cp < iv.first ∨ iv.last < cp) →
      getGlyph ivs cp = none ∧
        glyphOrReplacement ivs cp = getGlyph ivs REPLACEMENT_GLYPH) := by
  constructor
  · intro k iv hk h1 h2
    have hklen : k < ivs.length := by
      by_contra hcon
      rw [List.get?_eq_none.mpr (by omega)] at hk
      cases hk
    unfold getGlyph
    rw [if_neg (by omega : ¬ ivs.length = 0)]
    exact glyphBinarySearch_hit ivs cp hs.1 hs.2 (((ivs.length : ℤ) - 1 + 1 - 0).toNat)
      0 ((ivs.length : ℤ) - 1) (le_refl _) (by omega) (by omega) k iv hk h1 h2 (by omega)
      (by omega)
  · intro hmiss
    have hA : getGlyph ivs cp = none := by
      unfold getGlyph
      by_cases h0 : ivs.length = 0
      · rw [if_pos h0]
      · rw [if_neg h0]
        exact glyphBinarySearch_miss ivs cp hmiss _ 0 _ (le_refl _)
    refine ⟨hA, ?_⟩
    unfold glyphOrReplacement
    rw [hA]

/-- C9 witness: in the table `[10..20] ↦ 100, [30..30] ↦ 111`, the
boundary code point 20 resolves to glyph index 110, and code point 25
(between the intervals) is not found and falls back to the replacement
code point. -/
theorem claim_C9_glyph_lookup_witness :
    getGlyph [⟨10, 20, 100⟩, ⟨30, 30, 111⟩] 20 = some 110 ∧
    (getGlyph [⟨10, 20, 100⟩, ⟨30, 30, 111⟩] 25 = none ∧
      glyphOrReplacement [⟨10, 20, 100⟩, ⟨30, 30, 111⟩] 25 =
        getGlyph [⟨10, 20, 100⟩, ⟨30, 30, 111⟩] REPLACEMENT_GLYPH) := by
  have hsT : IntervalsSorted [⟨10, 20, 100⟩, ⟨30, 30, 111⟩] := by
    constructor
    · intro i iv h
      match i, h with
      | 0, h => cases h; decide
      | 1, h => cases h; decide
    · intro i j ivi ivj hi hj hij
      match i, j, hi, hj with
      | 0, 0, hi, hj => omega
      | 0, 1, hi, hj => cases hi; cases hj; decide
      | 1, 1, hi, hj => omega
      | _ + 2, _, hi, hj => cases hi
      | 1, 0, hi, hj => omega
      | 0, _ + 2, hi, hj => cases hj
      | 1, _ + 2, hi, hj => cases hj
  exact ⟨(claim_C9_glyph_lookup _ 20 hsT).1 0 ⟨10, 20, 100⟩ rfl (by decide) (by decide),
         (claim_C9_glyph_lookup _ 25 hsT).2 (by decide)⟩

/-! ## Claims C1, C7, C8 — section cache codec -/

theorem decU8_enc (n : ℕ) (h : n < 256) (rest : List ℕ) :
    decU8 (encU8 n ++ rest) = some (n, rest) := by
  simp only [encU8, List.cons_append, List.nil_append, decU8]
  congr 1
  rw [Prod.mk.injEq]
  exact ⟨by omega, rfl⟩

theorem decU16_enc (n : ℕ) (h : n < 65536) (rest : List ℕ) :
    decU16 (encU16 n ++ rest) = some (n, rest) := by
  simp only [encU16, List.cons_append, List.nil_append, decU16]
  congr 1
  rw [Prod.mk.injEq]
  exact ⟨by omega, rfl⟩

theorem decU32_enc (n : ℕ) (h : n < 4294967296) (rest : List ℕ) :
    decU32 (encU32 n ++ rest) = some (n, rest) := by
  simp only [encU32, List.cons_append, List.nil_append, decU32]
  congr 1
  rw [Prod.mk.injEq]
  exact ⟨by omega, rfl⟩

theorem decI32_enc (z : ℤ) (h1 : -2147483648 ≤ z) (h2 : z < 2147483648) (rest : List ℕ) :
    decI32 (encI32 z ++ rest) = some (z, rest) := by
  unfold decI32 encI32
  rw [decU32_enc _ (by omega) rest]
  simp only [Option.map_some']
  congr 1
  rw [Prod.mk.injEq]
  refine ⟨?_, rfl⟩
  split <;> omega

theorem decBool_enc (b : Bool) (rest : List ℕ) :
    decBool (encBool b ++ rest) = some (b, rest) := by
  cases b <;> simp [decBool, encBool, decU8]

theorem decI16_enc (z : ℤ) (h1 : -32768 ≤ z) (h2 : z < 32768) (rest : List ℕ) :
    decI16 (encI16 z ++ rest) = some (z, rest) := by
  unfold decI16 encI16
  rw [decU16_enc _ (by omega) rest]
  simp only [Option.map_some']
  congr 1
  rw [Prod.mk.injEq]
  refine ⟨?_, rfl⟩
  split <;> omega

theorem decFingerprint_enc (p : Fingerprint) (h : p.wf) (rest : List ℕ) :
    decFingerprint (encFingerprint p ++ rest) = some (p, rest) := by
  obtain ⟨h1, h2, h3, h4, h5, h6⟩ := h
  unfold encFingerprint decFingerprint
  simp only [List.append_assoc]
  rw [decI32_enc _ h1 h2]
  dsimp only
  rw [decU32_enc _ h3]
  dsimp only
  rw [decBool_enc]
  dsimp only
  rw [decU8_enc _ h4]
  dsimp only
  rw [decU16_enc _ h5]
  dsimp only
  rw [decU16_enc _ h6]
  dsimp only
  rw [decBool_enc]

theorem decPageEls_enc (es : List PageEl) (h : ∀ e ∈ es, e.wf) (rest : List ℕ) :
    decPageEls es.length ((es.map encPageEl).flatten ++ rest) = some (es, rest) := by
  induction es with
  | nil => rfl
  | cons e es ih =>
    obtain ⟨he1, he2, he3, he4, he5⟩ := h e (List.mem_cons_self _ _)
    simp only [List.map_cons, List.flatten_cons, List.length_cons]
    unfold decPageEls
    simp only [encPageEl, List.append_assoc]
    rw [decU8_enc _ he1]
    dsimp only
    rw [decI16_enc _ he2 he3]
    dsimp only
    rw [decI16_enc _ he4 he5]
    dsimp only
    rw [ih (fun x hx => h x (List.mem_cons_of_mem _ hx))]

theorem decPage_enc (pg : PageRec) (h : pg.wf) (rest : List ℕ) :
    decPage (encPage pg ++ rest) = some (pg, rest) := by
  unfold decPage encPage
  simp only [List.append_assoc]
  rw [decU16_enc _ h.2]
  dsimp only
  exact decPageEls_enc pg h.1 rest

theorem decLutEntries_enc (lut : List ℕ) (h : ∀ x ∈ lut, x < 4294967296) (rest : List ℕ) :
    decLutEntries lut.length (lutBytes lut ++ rest) = some lut := by
  induction lut with
  | nil => rfl
  | cons x lut ih =>
    simp only [lutBytes, List.map_cons, List.flatten_cons, List.length_cons,
      List.append_assoc]
    unfold decLutEntries
    rw [decU32_enc _ (h x (List.mem_cons_self _ _))]
    dsimp only
    rw [show (lut.map encU32).flatten ++ rest = lutBytes lut ++ rest from rfl]
    rw [ih (fun y hy => h y (List.mem_cons_of_mem _ hy))]

theorem encFingerprint_length (p : Fingerprint) : (encFingerprint p).length = 15 := by
  simp [encFingerprint, encI32, encU32, encU8, encU16, encBool]

theorem MFile.write_at_end (f : MFile) (bs : List ℕ) (h : f.pos = f.data.length) :
    f.write bs = ⟨f.data ++ bs, f.pos + bs.length⟩ := by
  unfold MFile.write overwriteAt
  rw [h]
  rw [List.take_length, List.drop_eq_nil_of_le (by simp [List.length_append]), List.append_nil]

theorem create_fold (ps : List PageRec) :
    ∀ (f : MFile) (lut0 : List ℕ), f.pos = f.data.length →
      (ps.foldl (fun (acc : MFile × List ℕ) page =>
          ((acc.1.write (encPage page)), acc.2 ++ [acc.1.pos])) (f, lut0)) =
        (⟨f.data ++ pagesBytes ps, f.pos + (pagesBytes ps).length⟩,
          lut0 ++ pageOffsets f.pos ps) := by
  induction ps with
  | nil =>
    intro f lut0 hpos
    simp [pagesBytes, pageOffsets]
  | cons pg ps ih =>
    intro f lut0 hpos
    rw [List.foldl_cons]
    rw [MFile.write_at_end f _ hpos]
    rw [ih ⟨f.data ++ encPage pg, f.pos + (encPage pg).length⟩ (lut0 ++ [f.pos])
      (by simp [List.length_append]; omega)]
    simp only [pagesBytes, pageOffsets, List.map_cons, List.flatten_cons]
    rw [Prod.mk.injEq]
    constructor
    · rw [MFile.mk.injEq]
      constructor
      · simp [List.append_assoc]
      · simp [List.length_append]
        omega
    · simp [List.append_assoc]

theorem lut_fold (lut : List ℕ) :
    ∀ f : MFile, f.pos = f.data.length →
      (lut.foldl (fun (f : MFile) e => f.write (encU32 e)) f) =
        ⟨f.data ++ lutBytes lut, f.pos + (lutBytes lut).length⟩ := by
  induction lut with
  | nil =>
    intro f hpos
    simp [lutBytes]
  | cons x lut ih =>
    intro f hpos
    rw [List.foldl_cons]
    rw [MFile.write_at_end f _ hpos]
    rw [ih ⟨f.data ++ encU32 x, f.pos + (encU32 x).length⟩
      (by simp [List.length_append]; omega)]
    simp only [lutBytes, List.map_cons, List.flatten_cons]
    rw [MFile.mk.injEq]
    constructor
    · simp [List.append_assoc]
    · simp [List.length_append]
      omega

theorem pageOffsets_length (ps : List PageRec) : ∀ base : ℕ,
    (pageOffsets base ps).length = ps.length := by
  induction ps with
  | nil => intro base; rfl
  | cons pg ps ih =>
    intro base
    simp only [pageOffsets, List.length_cons, ih]

theorem encPage_length_ge (pg : PageRec) : 2 ≤ (encPage pg).length := by
  simp [encPage, encU16, List.length_append]

theorem pageOffsets_ge (ps : List PageRec) : ∀ base : ℕ,
    ∀ x ∈ pageOffsets base ps, base ≤ x := by
  induction ps with
  | nil => intro base x hx; simp [pageOffsets] at hx
  | cons pg ps ih =>
    intro base x hx
    simp only [pageOffsets, List.mem_cons] at hx
    rcases hx with rfl | hx
    · exact Nat.le_refl _
    · exact Nat.le_trans (Nat.le_add_right _ _) (ih _ x hx)

theorem pageOffsets_lt (ps : List PageRec) : ∀ base : ℕ,
    ∀ x ∈ pageOffsets base ps, x < base + (pagesBytes ps).length := by
  induction ps with
  | nil => intro base x hx; simp [pageOffsets] at hx
  | cons pg ps ih =>
    intro base x hx
    have h2 := encPage_length_ge pg
    simp only [pageOffsets, List.mem_cons] at hx
    simp only [pagesBytes, List.map_cons, List.flatten_cons, List.length_append]
    rcases hx with rfl | hx
    · omega
    · have := ih (base + (encPage pg).length) x hx
      simp only [pagesBytes] at this
      omega

theorem pageOffsets_pairwise (ps : List PageRec) : ∀ base : ℕ,
    List.Pairwise (· < ·) (pageOffsets base ps) := by
  induction ps with
  | nil => intro base; simp [pageOffsets]
  | cons pg ps ih =>
    intro base
    have h2 := encPage_length_ge pg
    simp only [pageOffsets]
    refine List.Pairwise.cons ?_ (ih _)
    intro x hx
    have := pageOffsets_ge ps (base + (encPage pg).length) x hx
    omega

theorem pageOffsets_get? (ps : List PageRec) : ∀ (base i : ℕ) (pg : PageRec),
    ps.get? i = some pg →
      (pageOffsets base ps).get? i = some (base + (pagesBytes (ps.take i)).length) := by
  induction ps with
  | nil => intro base i pg h; cases h
  | cons q ps ih =>
    intro base i pg h
    cases i with
    | zero => simp [pageOffsets, pagesBytes]
    | succ i =>
      simp only [List.get?] at h
      simp only [pageOffsets, List.get?]
      rw [ih (base + (encPage q).length) i pg h]
      congr 1
      simp only [List.take, pagesBytes, List.map_cons, List.flatten_cons, List.length_append]
      omega

theorem overwriteAt_replace (A C Cn E : List ℕ) (n : ℕ)
    (hA : A.length = n) (hC : Cn.length = C.length) :
    overwriteAt (A ++ (C ++ E)) n Cn = A ++ (Cn ++ E) := by
  unfold overwriteAt
  subst hA
  rw [List.take_left, hC]
  have hre : A ++ (C ++ E) = (A ++ C) ++ E := (List.append_assoc _ _ _).symm
  rw [hre, show A.length + C.length = (A ++ C).length from (List.length_append _ _).symm,
    List.drop_left]
  simp [List.append_assoc]

theorem createSectionCache_eq (p : Fingerprint) (pages : List PageRec) :
    createSectionCache p pages =
      (⟨encU8 SECTION_FILE_VERSION ++
          (encFingerprint p ++
            (encU16 pages.length ++
              (encU32 (HEADER_SIZE + (pagesBytes pages).length) ++
                (pagesBytes pages ++ lutBytes (pageOffsets HEADER_SIZE pages))))), 22⟩,
        pageOffsets HEADER_SIZE pages, pages.length) := by
  have hv : (encU8 SECTION_FILE_VERSION).length = 1 := by simp [encU8]
  have hfp := encFingerprint_length p
  have h16 : (encU8 SECTION_FILE_VERSION ++ encFingerprint p).length = 16 := by
    simp [List.length_append, hv, hfp]
  have h18 : (encU8 SECTION_FILE_VERSION ++ encFingerprint p ++ encU16 0).length = 18 := by
    simp [List.length_append, hv, hfp, encU16]
  have h22 : (encU8 SECTION_FILE_VERSION ++ encFingerprint p ++ encU16 0 ++
      encU32 0).length = 22 := by
    simp [List.length_append, hv, hfp, encU16, encU32]
  have w1 : (MFile.mk [] 0).write (encU8 SECTION_FILE_VERSION) =
      ⟨encU8 SECTION_FILE_VERSION, 1⟩ := by
    rw [MFile.write_at_end _ _ rfl]
    simp [hv]
  have w2 : (MFile.mk (encU8 SECTION_FILE_VERSION) 1).write (encFingerprint p) =
      ⟨encU8 SECTION_FILE_VERSION ++ encFingerprint p, 16⟩ := by
    rw [MFile.write_at_end _ _ (by simp [hv])]
    simp [hfp]
  have w3 : (MFile.mk (encU8 SECTION_FILE_VERSION ++ encFingerprint p) 16).write
        (encU16 0) =
      ⟨encU8 SECTION_FILE_VERSION ++ encFingerprint p ++ encU16 0, 18⟩ := by
    rw [MFile.write_at_end _ _ (by simp [h16])]
    simp [encU16]
  have w4 : (MFile.mk (encU8 SECTION_FILE_VERSION ++ encFingerprint p ++ encU16 0)
        18).write (encU32 0) =
      ⟨encU8 SECTION_FILE_VERSION ++ encFingerprint p ++ encU16 0 ++ encU32 0, 22⟩ := by
    rw [MFile.write_at_end _ _ (by
      simp only [List.length_append, hv, hfp, encU16, List.length_cons,
        List.length_nil])]
    simp [encU32]
  unfold createSectionCache
  dsimp only
  rw [w1, w2, w3, w4]
  rw [create_fold pages _ [] (by
    simp only [List.length_append, hv, hfp, encU16, encU32, List.length_cons,
      List.length_nil])]
  dsimp only
  simp only [List.nil_append]
  rw [lut_fold _ _ (by
    simp only [List.length_append, hv, hfp, encU16, encU32, List.length_cons,
      List.length_nil])]
  dsimp only [MFile.seek]
  unfold HEADER_SIZE
  have hseek : (22 : ℕ) - 4 - 2 = 16 := by norm_num
  rw [hseek]
  rw [pageOffsets_length]
  unfold MFile.write
  dsimp only
  have hsh1 : encU8 SECTION_FILE_VERSION ++ encFingerprint p ++ encU16 0 ++ encU32 0 ++
      pagesBytes pages ++ lutBytes (pageOffsets 22 pages) =
      (encU8 SECTION_FILE_VERSION ++ encFingerprint p) ++
        (encU16 0 ++ (encU32 0 ++ (pagesBytes pages ++
          lutBytes (pageOffsets 22 pages)))) := by
    simp [List.append_assoc]
  rw [hsh1]
  rw [overwriteAt_replace _ _ _ _ _ h16 (by simp [encU16])]
  have hsh2 : (encU8 SECTION_FILE_VERSION ++ encFingerprint p) ++
      (encU16 pages.length ++ (encU32 0 ++ (pagesBytes pages ++
        lutBytes (pageOffsets 22 pages)))) =
      ((encU8 SECTION_FILE_VERSION ++ encFingerprint p) ++ encU16 pages.length) ++
        (encU32 0 ++ (pagesBytes pages ++ lutBytes (pageOffsets 22 pages))) := by
    simp [List.append_assoc]
  rw [hsh2]
  rw [overwriteAt_replace _ _ _ _ _ (by
      simp only [List.length_append, hv, hfp, encU16, List.length_cons,
        List.length_nil])
    (by simp [encU32])]
  simp only [encU16, encU32, List.length_cons, List.length_nil]
  rw [Prod.mk.injEq, Prod.mk.injEq, MFile.mk.injEq]
  refine ⟨⟨?_, by norm_num⟩, rfl, rfl⟩
  simp [List.append_assoc]

theorem pagesBytes_take_drop (ps : List PageRec) (i : ℕ) :
    pagesBytes (ps.take i) ++ pagesBytes (ps.drop i) = pagesBytes ps := by
  simp only [pagesBytes]
  rw [← List.flatten_append, ← List.map_append, List.take_append_drop]

theorem pagesBytes_cons (q : PageRec) (l : List PageRec) :
    pagesBytes (q :: l) = encPage q ++ pagesBytes l := by
  simp [pagesBytes]

theorem pagesBytes_drop_at (ps : List PageRec) : ∀ (i : ℕ) (pg : PageRec),
    ps.get? i = some pg →
      (pagesBytes ps).drop ((pagesBytes (ps.take i)).length) =
        encPage pg ++ pagesBytes (ps.drop (i + 1)) := by
  induction ps with
  | nil => intro i pg h; cases h
  | cons q ps ih =>
    intro i pg h
    cases i with
    | zero =>
      cases h
      simp [pagesBytes]
    | succ i =>
      rw [List.get?_cons_succ] at h
      rw [List.take_succ_cons, List.drop_succ_cons, pagesBytes_cons, pagesBytes_cons,
        List.length_append, ← List.drop_drop, List.drop_left]
      exact ih i pg h

theorem loadSectionCache_create (p : Fingerprint) (pages : List PageRec) (hp : p.wf)
    (hcount : pages.length < 65536)
    (hsize : HEADER_SIZE + (pagesBytes pages).length < 4294967296) :
    loadSectionCache (createSectionCache p pages).1.data p =
      ⟨some (pages.length, pageOffsets HEADER_SIZE pages), false⟩ := by
  rw [createSectionCache_eq]
  dsimp only
  unfold loadSectionCache
  rw [decU8_enc _ (by decide)]
  dsimp only
  rw [if_neg (by simp)]
  rw [decFingerprint_enc p hp]
  dsimp only
  rw [if_neg (by simp)]
  rw [decU16_enc _ hcount]
  dsimp only
  rw [decU32_enc _ hsize]
  dsimp only
  have hdrop : (encU8 SECTION_FILE_VERSION ++
      (encFingerprint p ++
        (encU16 pages.length ++
          (encU32 (HEADER_SIZE + (pagesBytes pages).length) ++
            (pagesBytes pages ++ lutBytes (pageOffsets HEADER_SIZE pages)))))).drop
        (HEADER_SIZE + (pagesBytes pages).length) =
      lutBytes (pageOffsets HEADER_SIZE pages) := by
    have hsh : encU8 SECTION_FILE_VERSION ++
        (encFingerprint p ++
          (encU16 pages.length ++
            (encU32 (HEADER_SIZE + (pagesBytes pages).length) ++
              (pagesBytes pages ++ lutBytes (pageOffsets HEADER_SIZE pages))))) =
        (encU8 SECTION_FILE_VERSION ++ encFingerprint p ++ encU16 pages.length ++
          encU32 (HEADER_SIZE + (pagesBytes pages).length) ++ pagesBytes pages) ++
          lutBytes (pageOffsets HEADER_SIZE pages) := by
      simp [List.append_assoc]
    rw [hsh]
    refine List.drop_left' ?_
    simp only [List.length_append, encU8, encU16, encU32, List.length_cons,
      List.length_nil, encFingerprint_length p, HEADER_SIZE]
  rw [hdrop]
  have hlut : decLutEntries pages.length (lutBytes (pageOffsets HEADER_SIZE pages)) =
      some (pageOffsets HEADER_SIZE pages) := by
    have hb : ∀ x ∈ pageOffsets HEADER_SIZE pages, x < 4294967296 := by
      intro x hx
      have := pageOffsets_lt pages HEADER_SIZE x hx
      omega
    have hrt := decLutEntries_enc (pageOffsets HEADER_SIZE pages) hb []
    rw [List.append_nil, pageOffsets_length] at hrt
    exact hrt
  rw [hlut]

theorem loadSectionCache_create_ne (p p' : Fingerprint) (pages : List PageRec)
    (hp : p.wf) (hne : p ≠ p') :
    loadSectionCache (createSectionCache p pages).1.data p' = ⟨none, true⟩ := by
  rw [createSectionCache_eq]
  dsimp only
  unfold loadSectionCache
  rw [decU8_enc _ (by decide)]
  dsimp only
  rw [if_neg (by simp)]
  rw [decFingerprint_enc p hp]
  dsimp only
  rw [if_pos hne]

theorem loadSectionCache_version_mismatch (data : List ℕ) (v : ℕ) (r : List ℕ)
    (fp : Fingerprint) (hd : decU8 data = some (v, r)) (hv : v ≠ SECTION_FILE_VERSION) :
    loadSectionCache data fp = ⟨none, false⟩ := by
  unfold loadSectionCache
  rw [hd]
  dsimp only
  rw [if_pos hv]

/-- C1: building the cache for fingerprint `P` and then validating with
the same `P` succeeds (returning the page count and LUT); validating
with any `P'` differing from `P` in at least one fingerprint field fails,
and the cache is treated as invalid (`ok = none`, triggering a rebuild).
The `float` line-compression field is compared bitwise in this model. -/
theorem claim_C1_fingerprint_validation (p p' : Fingerprint) (pages : List PageRec)
    (hp : p.wf) (hcount : pages.length < 65536)
    (hsize : HEADER_SIZE + (pagesBytes pages).length < 4294967296) :
    (loadSectionCache (createSectionCache p pages).1.data p).ok =
      some (pages.length, pageOffsets HEADER_SIZE pages) ∧
    (p' ≠ p → (loadSectionCache (createSectionCache p pages).1.data p').ok = none) := by
  constructor
  · rw [loadSectionCache_create p pages hp hcount hsize]
  · intro hne
    rw [loadSectionCache_create_ne p p' pages hp (fun h => hne h.symm)]

/-- C1 witness: a one-page cache built for a concrete fingerprint
validates against it and fails against the same fingerprint with a
different viewport width. -/
theorem claim_C1_fingerprint_validation_witness :
    (loadSectionCache
        (createSectionCache ⟨1, 1065353216, false, 0, 100, 200, false⟩
          [[⟨1, 2, 3⟩]]).1.data
        ⟨1, 1065353216, false, 0, 100, 200, false⟩).ok =
      some ((List.length ([[⟨1, 2, 3⟩]] : List PageRec)),
        pageOffsets HEADER_SIZE [[⟨1, 2, 3⟩]]) ∧
    ((⟨1, 1065353216, false, 0, 150, 200, false⟩ : Fingerprint) ≠
        ⟨1, 1065353216, false, 0, 100, 200, false⟩ →
      (loadSectionCache
          (createSectionCache ⟨1, 1065353216, false, 0, 100, 200, false⟩
            [[⟨1, 2, 3⟩]]).1.data
          ⟨1, 1065353216, false, 0, 150, 200, false⟩).ok = none) :=
  claim_C1_fingerprint_validation ⟨1, 1065353216, false, 0, 100, 200, false⟩
    ⟨1, 1065353216, false, 0, 150, 200, false⟩ [[⟨1, 2, 3⟩]]
    (by decide) (by decide) (by decide)

/-- C7 counterexample: a 22-byte cache file whose version byte is 2
fails validation (`ok = none`) but is not deleted — the claim that every
validation failure deletes the stale file is false on the
version-mismatch path. -/
theorem claim_C7_counterexample :
    (loadSectionCache (2 :: List.replicate 21 0) ⟨0, 0, false, 0, 0, 0, false⟩).ok =
        none ∧
      (loadSectionCache (2 :: List.replicate 21 0)
        ⟨0, 0, false, 0, 0, 0, false⟩).removed = false := by
  decide

/-- C7 (amended): a fingerprint-field mismatch deletes the stale cache
file before returning invalid, but a version-byte mismatch returns
invalid without deleting the file; neither case is surfaced as an error
(both return `ok = none`, which triggers a rebuild). -/
theorem claim_C7_invalidation (p p' : Fingerprint) (pages : List PageRec)
    (data : List ℕ) (v : ℕ) (r : List ℕ)
    (hp : p.wf) (hd : decU8 data = some (v, r)) (hv : v ≠ SECTION_FILE_VERSION)
    (hne : p' ≠ p) :
    loadSectionCache data p' = ⟨none, false⟩ ∧
    loadSectionCache (createSectionCache p pages).1.data p' = ⟨none, true⟩ :=
  ⟨loadSectionCache_version_mismatch data v r p' hd hv,
   loadSectionCache_create_ne p p' pages hp (fun h => hne h.symm)⟩

/-- C7 witness: the amended behavior at a concrete version-2 file and a
concrete built cache probed with a different alignment. -/
theorem claim_C7_invalidation_witness :
    loadSectionCache (2 :: List.replicate 21 0) ⟨1, 0, false, 2, 10, 10, false⟩ =
      ⟨none, false⟩ ∧
    loadSectionCache
        (createSectionCache ⟨1, 0, false, 0, 10, 10, false⟩ []).1.data
        ⟨1, 0, false, 2, 10, 10, false⟩ =
      ⟨none, true⟩ :=
  claim_C7_invalidation ⟨1, 0, false, 0, 10, 10, false⟩ ⟨1, 0, false, 2, 10, 10, false⟩
    [] (2 :: List.replicate 21 0) 2 (List.replicate 21 0)
    (by decide) (by decide) (by decide) (by decide)

/-- C8: the in-memory LUT built by `createSectionCache` has one entry
per serialized page; entry `i` is exactly the stream position recorded
immediately before page `i` was written (header size plus the sizes of
the pages before it); the entries are strictly increasing; and random
access through `loadPageFromCache` seeks to `LUT[i]` and deserializes
exactly page `i` (and rejects out-of-range indices). -/
theorem claim_C8_lut_random_access (p : Fingerprint) (pages : List PageRec)
    (hpages : ∀ pg ∈ pages, pg.wf) :
    (createSectionCache p pages).2.1.length = pages.length ∧
    (∀ i pg, pages.get? i = some pg →
      (createSectionCache p pages).2.1.get? i = some (posBeforePage pages i)) ∧
    List.Pairwise (· < ·) (createSectionCache p pages).2.1 ∧
    (∀ i, loadPageFromCache (createSectionCache p pages).1.data
      (createSectionCache p pages).2.1 i = pages.get? i) := by
  rw [createSectionCache_eq]
  dsimp only
  refine ⟨pageOffsets_length _ _, ?_, pageOffsets_pairwise _ _, ?_⟩
  · intro i pg hi
    rw [pageOffsets_get? pages HEADER_SIZE i pg hi]
    rfl
  · intro i
    unfold loadPageFromCache
    cases hi : pages.get? i with
    | none =>
      have hnone : (pageOffsets HEADER_SIZE pages).get? i = none := by
        rw [List.get?_eq_none] at hi ⊢
        rw [pageOffsets_length]
        exact hi
      rw [hnone]
    | some pg =>
      rw [pageOffsets_get? pages HEADER_SIZE i pg hi]
      dsimp only
      have hsh : encU8 SECTION_FILE_VERSION ++
          (encFingerprint p ++
            (encU16 pages.length ++
              (encU32 (HEADER_SIZE + (pagesBytes pages).length) ++
                (pagesBytes pages ++ lutBytes (pageOffsets HEADER_SIZE pages))))) =
          (encU8 SECTION_FILE_VERSION ++ encFingerprint p ++ encU16 pages.length ++
            encU32 (HEADER_SIZE + (pagesBytes pages).length)) ++
            (pagesBytes pages ++ lutBytes (pageOffsets HEADER_SIZE pages)) := by
        simp [List.append_assoc]
      have hlen22 : (encU8 SECTION_FILE_VERSION ++ encFingerprint p ++
          encU16 pages.length ++
          encU32 (HEADER_SIZE + (pagesBytes pages).length)).length = HEADER_SIZE := by
        simp only [List.length_append, encU8, encU16, encU32, List.length_cons,
          List.length_nil, encFingerprint_length p, HEADER_SIZE]
      have htd : pagesBytes (pages.take i) ++ pagesBytes (pages.drop i) =
          pagesBytes pages := pagesBytes_take_drop pages i
      have hle : (pagesBytes (pages.take i)).length ≤ (pagesBytes pages).length := by
        rw [← htd, List.length_append]
        omega
      have hdropped : (encU8 SECTION_FILE_VERSION ++
          (encFingerprint p ++
            (encU16 pages.length ++
              (encU32 (HEADER_SIZE + (pagesBytes pages).length) ++
                (pagesBytes pages ++ lutBytes (pageOffsets HEADER_SIZE pages)))))).drop
            (HEADER_SIZE + (pagesBytes (pages.take i)).length) =
          encPage pg ++ (pagesBytes (pages.drop (i + 1)) ++
            lutBytes (pageOffsets HEADER_SIZE pages)) := by
        rw [hsh]
        rw [← List.drop_drop, List.drop_left' hlen22]
        rw [List.drop_append_of_le_length hle]
        rw [pagesBytes_drop_at pages i pg hi]
        simp [List.append_assoc]
      rw [hdropped]
      rw [decPage_enc pg (hpages pg (List.get?_mem hi))]
      simp

/-- C8 witness: a concrete two-page build — LUT entry 1 is the position
immediately before the second page, and random access returns the second
page record. -/
theorem claim_C8_lut_random_access_witness :
    (createSectionCache ⟨1, 0, false, 0, 100, 200, false⟩
        [[⟨1, 2, 3⟩], [⟨1, 5, 10⟩, ⟨2, 0, 0⟩]]).2.1.get? 1 =
      some (posBeforePage ([[⟨1, 2, 3⟩], [⟨1, 5, 10⟩, ⟨2, 0, 0⟩]] : List PageRec) 1) ∧
    loadPageFromCache
        (createSectionCache ⟨1, 0, false, 0, 100, 200, false⟩
          [[⟨1, 2, 3⟩], [⟨1, 5, 10⟩, ⟨2, 0, 0⟩]]).1.data
        (createSectionCache ⟨1, 0, false, 0, 100, 200, false⟩
          [[⟨1, 2, 3⟩], [⟨1, 5, 10⟩, ⟨2, 0, 0⟩]]).2.1 1 =
      ([[⟨1, 2, 3⟩], [⟨1, 5, 10⟩, ⟨2, 0, 0⟩]] : List PageRec).get? 1 :=
  ⟨(claim_C8_lut_random_access ⟨1, 0, false, 0, 100, 200, false⟩
      [[⟨1, 2, 3⟩], [⟨1, 5, 10⟩, ⟨2, 0, 0⟩]] (by decide)).2.1 1 [⟨1, 5, 10⟩, ⟨2, 0, 0⟩]
      (by decide),
   (claim_C8_lut_random_access ⟨1, 0, false, 0, 100, 200, false⟩
      [[⟨1, 2, 3⟩], [⟨1, 5, 10⟩, ⟨2, 0, 0⟩]] (by decide)).2.2.2 1⟩
